import Mathlib

/-
Verification of the Plarson plugin toolkit core against its specification.

The development shallowly embeds the two core subsystems:
  * the MutationWatcher (`Observer` in src/unnamed/part_001, lines 229-319):
    per-listener tracking of already-seen DOM nodes across mutation batches;
  * the chained remote-call engine (`REST` in src/components/REST/REST.ts):
    `REST.request`, `REST.chain`, `REST.dataAttr` and the form helpers of
    `REST.formSubmit`.

DOM nodes are modelled as natural numbers (physical node identity), JS strings
either as Lean `String` (where only construction and equality matter) or as
`List Char` (where character-level reasoning is needed), and the browser
environment (selector queries, global function table, network transport) as
explicit parameters.  Stateful callback-driven code is modelled as functions
producing an explicit event trace.
-/

namespace Plarson

/-! ### MutationWatcher (Observer, src/unnamed/part_001 lines 229-319)

A listener holds `alreadyExistedNodes`, initialised by `Observer.watch` with
the nodes matching the selector at registration time.  `Observer.check`
receives a list of MutationRecords; for each record it walks `addedNodes`,
and for each added node queries the added node's parent for elements matching
the listener's selector.  We model each entry of `addedNodes` by the result
of that query: `none` when `parentNode` is null (the query is skipped),
`some ms` for the list of matched elements `parentNode.querySelectorAll`
returns for this listener.  Nodes are natural numbers. -/

/-- One MutationRecord, as seen by a single listener: per added node the
selector-query result over its parent (`none` models a null parent), plus the
record's removed nodes. -/
structure MRecord where
  added : List (Option (List Nat))
  removed : List Nat
deriving DecidableEq

/-- Inner loop of `Observer.check` over one `querySelectorAll` result
(part_001 lines 287-303): an element absent from `alreadyExistedNodes` fires
the callback and is pushed onto `alreadyExistedNodes`.  Returns the updated
state and the list of nodes the callback fired on, in firing order. -/
def fireAdded (state : List Nat) : List Nat → List Nat × List Nat
  | [] => (state, [])
  | n :: ns =>
    if n ∈ state then fireAdded state ns
    else
      let r := fireAdded (state ++ [n]) ns
      (r.1, n :: r.2)

/-- Loop of `Observer.check` over the `addedNodes` of one record
(part_001 lines 282-305); a null parent skips the query. -/
def fireRecordAdded (state : List Nat) : List (Option (List Nat)) → List Nat × List Nat
  | [] => (state, [])
  | none :: rest => fireRecordAdded state rest
  | some ms :: rest =>
    let a := fireAdded state ms
    let b := fireRecordAdded a.1 rest
    (b.1, a.2 ++ b.2)

/-- Loop of `Observer.check` over `removedNodes` (part_001 lines 309-315):
each removed node is filtered out of `alreadyExistedNodes`
(`alreadyExistedNodes = alreadyExistedNodes.filter(node => node !== existedNode)`;
when the node is absent the filter is the identity). -/
def applyRemovals (state : List Nat) (removed : List Nat) : List Nat :=
  removed.foldl (fun st r => st.filter (fun x => x ≠ r)) state

/-- `Observer.check` for one listener over a sequence of MutationRecords
(the records of all delivered batches, in delivery order): additions are
processed before removals within each record, and the fired nodes of all
records are concatenated. -/
def processRecords (state : List Nat) : List MRecord → List Nat × List Nat
  | [] => (state, [])
  | rec :: recs =>
    let a := fireRecordAdded state rec.added
    let b := processRecords (applyRemovals a.1 rec.removed) recs
    (b.1, a.2 ++ b.2)

/-- A node is mentioned as added (through some parent query result) in a
record list. -/
def mentionedAdded (n : Nat) (recs : List MRecord) : Bool :=
  recs.any (fun rec => rec.added.any (fun o =>
    match o with
    | some ms => ms.contains n
    | none => false))

theorem fireAdded_mem_state (n : Nat) :
    ∀ (ms state : List Nat), n ∈ state → n ∈ (fireAdded state ms).1 := by
  intro ms
  induction ms with
  | nil => intro state h; simpa [fireAdded] using h
  | cons m ms ih =>
    intro state h
    by_cases hm : m ∈ state
    · simpa [fireAdded, hm] using ih state h
    · simp only [fireAdded, hm, if_false]
      exact ih (state ++ [m]) (List.mem_append_left _ h)

theorem fireAdded_count_zero (n : Nat) :
    ∀ (ms state : List Nat), n ∈ state → (fireAdded state ms).2.count n = 0 := by
  intro ms
  induction ms with
  | nil => intro state _; simp [fireAdded]
  | cons m ms ih =>
    intro state h
    by_cases hm : m ∈ state
    · simpa [fireAdded, hm] using ih state h
    · have hne : n ≠ m := fun e => hm (e ▸ h)
      simp only [fireAdded, hm, if_false]
      rw [List.count_cons_of_ne hne]
      exact ih (state ++ [m]) (List.mem_append_left _ h)

theorem fireAdded_count_le_one (n : Nat) :
    ∀ (ms state : List Nat), (fireAdded state ms).2.count n ≤ 1 := by
  intro ms
  induction ms with
  | nil => intro state; simp [fireAdded]
  | cons m ms ih =>
    intro state
    by_cases hm : m ∈ state
    · simpa [fireAdded, hm] using ih state
    · simp only [fireAdded, hm, if_false]
      rcases eq_or_ne n m with rfl | hne
      · rw [List.count_cons_self]
        have h0 := fireAdded_count_zero n ms (state ++ [n]) (by simp)
        omega
      · rw [List.count_cons_of_ne hne]
        exact ih (state ++ [m])

theorem fireAdded_state_iff (n : Nat) :
    ∀ (ms state : List Nat),
      n ∈ (fireAdded state ms).1 ↔ n ∈ state ∨ n ∈ (fireAdded state ms).2 := by
  intro ms
  induction ms with
  | nil => intro state; simp [fireAdded]
  | cons m ms ih =>
    intro state
    by_cases hm : m ∈ state
    · simpa [fireAdded, hm] using ih state
    · simp only [fireAdded, hm, if_false, List.mem_cons]
      rw [ih (state ++ [m])]
      constructor
      · rintro (h | h)
        · rcases List.mem_append.mp h with h | h
          · exact Or.inl h
          · simp at h; exact Or.inr (Or.inl h)
        · exact Or.inr (Or.inr h)
      · rintro (h | h | h)
        · exact Or.inl (List.mem_append_left _ h)
        · exact Or.inl (by simp [h])
        · exact Or.inr h

theorem fireAdded_fires (n : Nat) :
    ∀ (ms state : List Nat), n ∉ state → n ∈ ms → n ∈ (fireAdded state ms).2 := by
  intro ms
  induction ms with
  | nil => intro state _ h; simp at h
  | cons m ms ih =>
    intro state hns hmem
    by_cases hm : m ∈ state
    · have hne : n ≠ m := fun e => hns (e ▸ hm)
      simp only [fireAdded, hm, if_true]
      exact ih state hns (by rcases List.mem_cons.mp hmem with h | h; exact absurd h hne; exact h)
    · simp only [fireAdded, hm, if_false, List.mem_cons]
      by_cases hnm : n = m
      · exact Or.inl hnm
      · refine Or.inr (ih (state ++ [m]) ?_ ?_)
        · intro hc
          rcases List.mem_append.mp hc with h | h
          · exact hns h
          · simp at h; exact hnm h
        · rcases List.mem_cons.mp hmem with h | h
          · exact absurd h hnm
          · exact h

theorem fireRecordAdded_count_zero (n : Nat) :
    ∀ (added : List (Option (List Nat))) (state : List Nat), n ∈ state →
      (fireRecordAdded state added).2.count n = 0 := by
  intro added
  induction added with
  | nil => intro state _; simp [fireRecordAdded]
  | cons o rest ih =>
    intro state h
    match o with
    | none => simpa [fireRecordAdded] using ih state h
    | some ms =>
      simp only [fireRecordAdded, List.count_append]
      rw [fireAdded_count_zero n ms state h,
        ih (fireAdded state ms).1 (fireAdded_mem_state n ms state h)]

theorem fireRecordAdded_count_le_one (n : Nat) :
    ∀ (added : List (Option (List Nat))) (state : List Nat),
      (fireRecordAdded state added).2.count n ≤ 1 := by
  intro added
  induction added with
  | nil => intro state; simp [fireRecordAdded]
  | cons o rest ih =>
    intro state
    match o with
    | none => simpa [fireRecordAdded] using ih state
    | some ms =>
      simp only [fireRecordAdded, List.count_append]
      by_cases hf : n ∈ (fireAdded state ms).2
      · have hst : n ∈ (fireAdded state ms).1 :=
          (fireAdded_state_iff n ms state).mpr (Or.inr hf)
        have h2 := fireRecordAdded_count_zero n rest _ hst
        have h1 := fireAdded_count_le_one n ms state
        omega
      · have h1 : (fireAdded state ms).2.count n = 0 := List.count_eq_zero.mpr hf
        have h2 := ih (fireAdded state ms).1
        omega

theorem fireRecordAdded_state_iff (n : Nat) :
    ∀ (added : List (Option (List Nat))) (state : List Nat),
      n ∈ (fireRecordAdded state added).1 ↔
        n ∈ state ∨ n ∈ (fireRecordAdded state added).2 := by
  intro added
  induction added with
  | nil => intro state; simp [fireRecordAdded]
  | cons o rest ih =>
    intro state
    match o with
    | none => simpa [fireRecordAdded] using ih state
    | some ms =>
      simp only [fireRecordAdded, List.mem_append]
      rw [ih (fireAdded state ms).1, fireAdded_state_iff n ms state]
      tauto

theorem fireRecordAdded_fires (n : Nat) :
    ∀ (added : List (Option (List Nat))) (state : List Nat), n ∉ state →
      (added.any (fun o => match o with | some ms => ms.contains n | none => false)) = true →
      n ∈ (fireRecordAdded state added).2 := by
  intro added
  induction added with
  | nil => intro state _ h; simp at h
  | cons o rest ih =>
    intro state hns hmem
    match o with
    | none =>
      simp only [List.any_cons, Bool.or_eq_true] at hmem
      rcases hmem with h | h
      · simp at h
      · simpa [fireRecordAdded] using ih state hns h
    | some ms =>
      simp only [List.any_cons, Bool.or_eq_true] at hmem
      simp only [fireRecordAdded, List.mem_append]
      rcases hmem with h | h
      · exact Or.inl (fireAdded_fires n ms state hns (by simpa using h))
      · by_cases hf : n ∈ (fireAdded state ms).2
        · exact Or.inl hf
        · refine Or.inr (ih (fireAdded state ms).1 ?_ h)
          intro hc
          rcases (fireAdded_state_iff n ms state).mp hc with hc | hc
          · exact hns hc
          · exact hf hc

theorem applyRemovals_mem (n : Nat) :
    ∀ (removed state : List Nat), n ∉ removed →
      (n ∈ applyRemovals state removed ↔ n ∈ state) := by
  intro removed
  induction removed with
  | nil => intro state _; simp [applyRemovals]
  | cons r rest ih =>
    intro state hnr
    have hne : n ≠ r := fun e => hnr (e ▸ List.mem_cons_self r rest)
    have hrest : n ∉ rest := fun hc => hnr (List.mem_cons_of_mem r hc)
    simp only [applyRemovals, List.foldl_cons] at *
    rw [ih (state.filter (fun x => x ≠ r)) hrest]
    simp [List.mem_filter, hne]

theorem processRecords_master (n : Nat) :
    ∀ (recs : List MRecord) (state : List Nat),
      (∀ rec ∈ recs, n ∉ rec.removed) →
      ((n ∈ state → (processRecords state recs).2.count n = 0) ∧
        (processRecords state recs).2.count n ≤ 1 ∧
        (n ∈ (processRecords state recs).1 ↔ n ∈ state ∨ n ∈ (processRecords state recs).2) ∧
        (n ∉ state → mentionedAdded n recs = true → n ∈ (processRecords state recs).2)) := by
  intro recs
  induction recs with
  | nil =>
    intro state _
    refine ⟨fun _ => by simp [processRecords], by simp [processRecords],
      by simp [processRecords], fun _ h => by simp [mentionedAdded] at h⟩
  | cons rec recs ih =>
    intro state hrem
    have hrec : n ∉ rec.removed := hrem rec (List.mem_cons_self rec recs)
    have hrest : ∀ r ∈ recs, n ∉ r.removed :=
      fun r hr => hrem r (List.mem_cons_of_mem rec hr)
    set a := fireRecordAdded state rec.added with ha
    have hst2 : n ∈ applyRemovals a.1 rec.removed ↔ n ∈ a.1 :=
      applyRemovals_mem n rec.removed a.1 hrec
    obtain ⟨ih1, ih2, ih3, ih4⟩ := ih (applyRemovals a.1 rec.removed) hrest
    have hmem_a : n ∈ a.1 ↔ n ∈ state ∨ n ∈ a.2 := fireRecordAdded_state_iff n rec.added state
    have hout : processRecords state (rec :: recs) =
        ((processRecords (applyRemovals a.1 rec.removed) recs).1,
          a.2 ++ (processRecords (applyRemovals a.1 rec.removed) recs).2) := by
      simp [processRecords]
    rw [hout]
    simp only [List.count_append, List.mem_append]
    refine ⟨?_, ?_, ?_, ?_⟩
    · intro hn
      have h1 : a.2.count n = 0 := fireRecordAdded_count_zero n rec.added state hn
      have h2 : (processRecords (applyRemovals a.1 rec.removed) recs).2.count n = 0 :=
        ih1 (hst2.mpr (hmem_a.mpr (Or.inl hn)))
      omega
    · by_cases hf : n ∈ a.2
      · have h2 : (processRecords (applyRemovals a.1 rec.removed) recs).2.count n = 0 :=
          ih1 (hst2.mpr (hmem_a.mpr (Or.inr hf)))
        have h1 : a.2.count n ≤ 1 := by
          rw [ha]; exact fireRecordAdded_count_le_one n rec.added state
        omega
      · have h1 : a.2.count n = 0 := List.count_eq_zero.mpr hf
        omega
    · rw [ih3, hst2, hmem_a]
      tauto
    · intro hns hmention
      have hm : (rec.added.any (fun o =>
          match o with | some ms => ms.contains n | none => false)) = true ∨
          mentionedAdded n recs = true := by
        simpa [mentionedAdded, List.any_cons] using hmention
      rcases hm with hm | hm
      · exact Or.inl (fireRecordAdded_fires n rec.added state hns hm)
      · by_cases hf : n ∈ a.2
        · exact Or.inl hf
        · refine Or.inr (ih4 ?_ hm)
          intro hc
          rcases hmem_a.mp (hst2.mp hc) with hc | hc
          · exact hns hc
          · exact hf hc

/-- Claim C1 (amended): for a listener registered with snapshot `initial`,
as long as a node is never mentioned in a removedNodes set, the callback
fires on it at most once ever: a node present at registration never fires,
and a node absent at registration that is mentioned as added fires exactly
once, regardless of how many overlapping mutation records mention it.
(The unamended claim fails when the node is removed and re-added: eviction
from `alreadyExistedNodes` re-arms the callback, see the counterexample.) -/
theorem observer_callback_single_fire (initial : List Nat) (recs : List MRecord) (n : Nat)
    (hrem : ∀ rec ∈ recs, n ∉ rec.removed) :
    (n ∈ initial → (processRecords initial recs).2.count n = 0) ∧
    (processRecords initial recs).2.count n ≤ 1 ∧
    (n ∉ initial → mentionedAdded n recs = true →
      (processRecords initial recs).2.count n = 1) := by
  obtain ⟨h1, h2, _, h4⟩ := processRecords_master n recs initial hrem
  refine ⟨h1, h2, fun hns hm => ?_⟩
  have hmem := h4 hns hm
  have hpos : (processRecords initial recs).2.count n ≠ 0 :=
    fun hc => (List.count_eq_zero.mp hc) hmem
  omega

/-- Claim C1 counterexample: with an empty registration snapshot, the batch
sequence "add node 5; remove node 5; add node 5 again" fires the listener's
callback twice on the same physical node 5, refuting "at most once per
physical node, ever, regardless of how many mutation batches mention that
node". -/
theorem observer_callback_refire_counterexample :
    (processRecords []
        [⟨[some [5]], []⟩, ⟨[], [5]⟩, ⟨[some [5]], []⟩] : List Nat × List Nat).2 = [5, 5] ∧
    ¬ ((processRecords []
        [⟨[some [5]], []⟩, ⟨[], [5]⟩, ⟨[some [5]], []⟩] : List Nat × List Nat).2.count 5 ≤ 1) := by
  constructor
  · rfl
  · decide

/-- Witness for `observer_callback_single_fire` at a concrete input: node 3,
absent from the snapshot `[7]`, mentioned as added by two overlapping
records, never removed; the callback fires on it exactly once. -/
theorem observer_callback_single_fire_witness :
    (3 ∉ ([7] : List Nat)) ∧
    mentionedAdded 3 [⟨[some [3, 7]], []⟩, ⟨[some [3]], []⟩] = true ∧
    (processRecords [7] [⟨[some [3, 7]], []⟩, ⟨[some [3]], []⟩]).2.count 3 = 1 :=
  ⟨by decide, by decide,
    (observer_callback_single_fire [7] [⟨[some [3, 7]], []⟩, ⟨[some [3]], []⟩] 3
      (by decide)).2.2 (by decide) (by decide)⟩

/-! ### RequestExecutor (REST.request, src/components/REST/REST.ts lines 17-113)

`REST.request(method, type, url, data, callbackSuccess)` normalizes the
method, fills a FormData from `data` (throwing when `data` is falsy), sets
`fetchOptions.body` only for POST, and calls
`fetch(url + "?" + new URLSearchParams(formData).toString(), fetchOptions)`.
FormData is modelled as an ordered list of key/value string pairs;
`URLSearchParams.toString()` is modelled for payloads whose characters need
no percent-escaping. -/

/-- JS `String.prototype.toLowerCase`, modelled as lowering every character
(kernel-reducible formulation of `String.toLower`). -/
def jsToLowerCase (s : String) : String :=
  ⟨s.data.map Char.toLower⟩

/-- JS `x ? x : d` on an optional string: `null`/`undefined` and the empty
string are falsy. -/
def jsStringOr (o : Option String) (d : String) : String :=
  match o with
  | some s => if s = "" then d else s
  | none => d

/-- The `data` argument of `REST.request`: a FormData, a form element, a
plain object (each carrying its key/value entries, REST.ts lines 38-47), or
a falsy value (REST.ts line 49 throws). -/
inductive RequestData where
  | formData (entries : List (String × String))
  | formElement (entries : List (String × String))
  | obj (entries : List (String × String))
  | nullData
deriving DecidableEq

/-- Entries the FormData ends up holding for each `data` variant. -/
def RequestData.entriesOf : RequestData → Option (List (String × String))
  | .formData es => some es
  | .formElement es => some es
  | .obj es => some es
  | .nullData => none

/-- Model of `new URLSearchParams(formData).toString()` for entries free of
characters that URL-encoding would rewrite. -/
def encodeParams (es : List (String × String)) : String :=
  String.intercalate "&" (es.map (fun kv => kv.1 ++ "=" ++ kv.2))

/-- The single fetch call `REST.request` issues: its URL, method, optional
body and the response interpretation (`dataType`) chosen at lines 23-29. -/
structure FetchCall where
  url : String
  method : String
  body : Option (List (String × String))
  dataType : String
deriving DecidableEq

/-- Shallow embedding of `REST.request` (REST.ts lines 17-57) up to the
point the fetch is issued: method normalization, dataType defaulting
(`json` for POST, `html` otherwise), FormData assembly, body only for POST,
and the unconditional query-string append to the URL at line 57. -/
def request (method : String) (typ : Option String) (url : String)
    (data : RequestData) : Except String FetchCall :=
  let isPost := jsToLowerCase method = "post"
  let dataType := if isPost then jsStringOr typ "json" else jsStringOr typ "html"
  let testedMethod := if isPost then "POST" else "GET"
  match data.entriesOf with
  | none => Except.error "data is not an object"
  | some es =>
    Except.ok
      { url := url ++ "?" ++ encodeParams es
        method := testedMethod
        body := if isPost then some es else none
        dataType := dataType }

/-- Claim C2 (amended): for every payload, a GET request is issued with no
body and the whole payload encoded into the URL query string; the same
payload via POST is issued with the payload as the request body, but the
payload is ALSO appended to the URL query string, exactly as for GET (the
query-string append at REST.ts line 57 is unconditional). -/
theorem request_get_post_shape (method : String) (typ : Option String) (url : String)
    (data : RequestData) (es : List (String × String))
    (hdata : data.entriesOf = some es) :
    (jsToLowerCase method ≠ "post" →
      request method typ url data =
        Except.ok ⟨url ++ "?" ++ encodeParams es, "GET", none, jsStringOr typ "html"⟩) ∧
    (jsToLowerCase method = "post" →
      request method typ url data =
        Except.ok ⟨url ++ "?" ++ encodeParams es, "POST", some es, jsStringOr typ "json"⟩) := by
  constructor
  · intro h
    simp [request, hdata, h]
  · intro h
    simp [request, hdata, h]

/-- Claim C2 counterexample: the payload `a=1` POSTed to `/x` is carried in
the request body AND appended to the URL (`/x?a=1` differs from `/x`),
refuting "no payload appended to the URL" for POST. -/
theorem request_post_appends_query_counterexample :
    request "POST" none "/x" (RequestData.obj [("a", "1")]) =
      Except.ok ⟨"/x?a=1", "POST", some [("a", "1")], "json"⟩ ∧
    ("/x?a=1" : String) ≠ "/x" :=
  ⟨by rfl, by decide⟩

/-- Witness for `request_get_post_shape`: the same payload dispatched via
GET and via POST, evaluated concretely. -/
theorem request_get_post_shape_witness :
    (jsToLowerCase "get" ≠ "post" ∧
      request "get" none "/x" (RequestData.obj [("a", "1")]) =
        Except.ok ⟨"/x?a=1", "GET", none, "html"⟩) ∧
    (jsToLowerCase "post" = "post" ∧
      request "post" none "/x" (RequestData.obj [("a", "1")]) =
        Except.ok ⟨"/x?a=1", "POST", some [("a", "1")], "json"⟩) :=
  ⟨⟨by decide,
      (request_get_post_shape "get" none "/x" (RequestData.obj [("a", "1")])
        [("a", "1")] rfl).1 (by decide)⟩,
    ⟨by decide,
      (request_get_post_shape "post" none "/x" (RequestData.obj [("a", "1")])
        [("a", "1")] rfl).2 (by decide)⟩⟩

/-! ### FormChainAdapter: response interpretation (REST.formSubmit,
REST.ts lines 211-218)

`formSubmit` starts from `typeForResponse = 'text'` and switches to
`'json'` only when the first `[data-faze-restapi-notification]` element's
attribute value is exactly the string `'response_json'`.  The method's own
doc comment (REST.ts lines 122-125) and the comment at line 226 document the
attribute's values as `text` and `json`. -/

/-- Embedding of REST.ts lines 211-218: the desired response interpretation,
from the first notification region's attribute value (`none` models the
absence of a notification region). -/
def resolveResponseType (notification : Option String) : String :=
  match notification with
  | none => "text"
  | some v => if v = "response_json" then "json" else "text"

/-- The POST dispatch of `formSubmit` (REST.ts line 240): the request is
issued with method `POST` and the resolved response interpretation. -/
def formSubmitDispatch (notification : Option String) (url : String)
    (fd : List (String × String)) : Except String FetchCall :=
  request "POST" (some (resolveResponseType notification)) url (RequestData.formData fd)

/-- Claim C4 (code bug evaluation): a notification region declaring mode
`json` — the value the code's own doc comments (REST.ts lines 122-125, 226)
prescribe — is dispatched with TEXT interpretation, because line 215 compares
the attribute against the string `response_json`; only that undocumented
value yields a structured (JSON) response, and an absent region defaults to
text. -/
theorem formSubmit_notification_type_eval :
    resolveResponseType (some "json") = "text" ∧
    resolveResponseType (some "response_json") = "json" ∧
    resolveResponseType none = "text" ∧
    formSubmitDispatch (some "json") "/f" [] =
      Except.ok ⟨"/f?", "POST", some [], "text"⟩ :=
  ⟨by decide, by decide, by decide, by rfl⟩

/-! ### ChainEngine (REST.chain, REST.ts lines 338-455; REST.dataAttr,
lines 259-330)

`REST.chain` recursively consumes a step list.  A step is a function value,
a string (looked up in `window`), or an object carrying a `function` or
`method` field.  The global function table is modelled by
`w : String → Bool` (`w name = true` iff `name in window` and
`window[name]` is a callable); the current page path
(`window.location.pathname`) by the `pathname` parameter.

Asynchrony is modelled by a transport oracle: a list of `FetchOutcome`s
consumed one per issued request, in issue order.  The continuation of a
request step runs inside `REST.request`'s completion callback, so its
events follow the request's settle event in the trace; an exhausted oracle
models a transport that never settles, leaving the chain suspended
(no further events).  Execution is recorded as an event trace. -/

/-- How one `fetch` settles: the response delivered and parsed, a response
whose json/text parsing rejects (REST.ts lines 58-69, the rejection reaches
the catch at line 101), or a network rejection (line 101). -/
inductive FetchOutcome where
  | success (resp : String)
  | parseFailure
  | reject
deriving DecidableEq

/-- The value `REST.request` passes to its completion callback: the parsed
response (second then, line 95), or null from the catch (line 107). -/
def settle : FetchOutcome → Option String
  | .success r => some r
  | .parseFailure => none
  | .reject => none

/-- The completion-callback invocations one `REST.request` performs: exactly
one, from the success path (line 95) or from the catch (line 107); the
invocation is wrapped in try/catch, so nothing propagates to the caller. -/
def requestOnDoneCalls : FetchOutcome → List (Option String)
  | .success r => [some r]
  | .parseFailure => [none]
  | .reject => [none]

/-- An object step of `REST.chain` (the fields lines 371-450 consult).
`function`/`method`/`page`/`module` are `none` when the field is absent or
empty (JS falsy); `hasCallback` records whether `data.callback` is a
function; `delay` is the `delay` field `REST.dataAttr` checks at line 304. -/
structure StepObj where
  function : Option String := none
  method : Option String := none
  typeField : Option String := none
  page : Option String := none
  module : Option String := none
  hasCallback : Bool := false
  delay : Option Nat := none
deriving DecidableEq

/-- One element of the chain array: a function value (identified by a
number), a bare string, or an object step. -/
inductive Step where
  | fn (id : Nat)
  | str (name : String)
  | obj (o : StepObj)
deriving DecidableEq

/-- Observable execution events of the engine, in occurrence order. -/
inductive Event where
  | callFn (id : Nat)
  | callNamed (fname : String)
  | requestSent (method : String) (url : String)
  | stepCallback (resp : Option String)
  | finalCb
  | err (msg : String)
deriving DecidableEq

/-- URL rewriting of a request step (REST.ts lines 408-419): `page` and
`module` choose between the current path and a page-derived path. -/
def chainUrl (pathname : String) (o : StepObj) : String :=
  let pagePath : String → String :=
    fun p => if p.startsWith "/" then p else "/" ++ p ++ ".txt"
  match o.page, o.module with
  | some p, some _ => pagePath p
  | none, some _ => pathname
  | some p, none => pagePath p
  | none, none => pathname

/-- Shallow embedding of `REST.chain` after input normalization (REST.ts
lines 354-455) as an event trace.  `final` records whether a final callback
function was supplied.  Branches, in source order: empty list invokes the
final callback and stops (lines 355-365); a function value runs and recurses
(374-381); a string resolvable in `window` runs and does NOT recurse
(383-388), while an unresolvable string falls into the object branch where
`'function' in data` throws on a string primitive; an object with a
`function` field runs the named global when resolvable and recurses either
way (391-404); an object with a `method` field issues the request and
continues inside its completion callback (406-450), consuming one oracle
entry — an exhausted oracle is a transport that never settles; any other
object throws (line 452). -/
def chainRun (w : String → Bool) (pathname : String) :
    List FetchOutcome → List Step → Bool → List Event
  | _, [], final => if final then [Event.finalCb] else []
  | oracle, s :: rest, final =>
    match s with
    | .fn id => Event.callFn id :: chainRun w pathname oracle rest final
    | .str name =>
      if w name then [Event.callNamed name]
      else [Event.err "TypeError: cannot use in on a string"]
    | .obj o =>
      match o.function with
      | some fname =>
        (if w fname then [Event.callNamed fname] else []) ++
          chainRun w pathname oracle rest final
      | none =>
        match o.method with
        | some m =>
          Event.requestSent m (chainUrl pathname o) ::
            (match oracle with
              | outcome :: oracleRest =>
                (if o.hasCallback then [Event.stepCallback (settle outcome)] else []) ++
                  chainRun w pathname oracleRest rest final
              | [] => [])
        | none => [Event.err "missing method or function"]

/-- The `chainRawData` argument of `REST.chain` (lines 342-352): an array,
a string (modelled with its `JSON.parse` result: `some steps` when it parses
to an array, `none` when parsing throws — `chainData` then stays undefined
and `chainData.shift()` at line 368 throws), or anything else (silently
ignored, line 351). -/
inductive ChainInput where
  | arr (steps : List Step)
  | strJson (parsed : Option (List Step))
  | other

/-- Shallow embedding of `REST.chain` including input normalization
(REST.ts lines 338-352). -/
def chain (w : String → Bool) (pathname : String) (oracle : List FetchOutcome) :
    ChainInput → Bool → List Event
  | .arr steps, final => chainRun w pathname oracle steps final
  | .strJson (some steps), final => chainRun w pathname oracle steps final
  | .strJson none, _ => [Event.err "TypeError: shift of undefined"]
  | .other, _ => []

/-- JS truthiness of `chain[0]['delay']` (REST.ts line 304): only an object
step with a nonzero `delay` field is truthy (property access on a function
value or a string primitive yields undefined). -/
def stepDelayTruthy : Step → Bool
  | .obj o => match o.delay with | some d => d ≠ 0 | none => false
  | _ => false

/-- Shallow embedding of `REST.dataAttr` for an array argument (REST.ts
lines 274-329).  For an array, `element` is null: the JSON
stringify/parse roundtrip of lines 277-294 is the identity on the empty
array these claims concern; `if (chain.length)` (line 297) returns without
ever calling `REST.chain` when the array is empty; a truthy `delay` on the
first step reaches `element.hasAttribute` with `element === null` and
throws; otherwise `REST.chain(chain, finalCallback)` runs (line 327). -/
def dataAttrArray (w : String → Bool) (pathname : String)
    (oracle : List FetchOutcome) (steps : List Step) (final : Bool) : List Event :=
  match steps with
  | [] => []
  | s :: _ =>
    if stepDelayTruthy s then [Event.err "TypeError: element is null"]
    else chainRun w pathname oracle steps final

/-- A step whose `REST.chain` branch recurses synchronously into the rest of
the list: a function value (line 380) or an object with a `function` field
(line 403).  String steps stop the recursion; request steps recurse only
inside the completion callback. -/
def isSync : Step → Bool
  | .fn _ => true
  | .str _ => false
  | .obj o => o.function.isSome

/-- The events a synchronous step emits before the recursion continues. -/
def syncEvents (w : String → Bool) : Step → List Event
  | .fn id => [Event.callFn id]
  | .str _ => []
  | .obj o =>
    match o.function with
    | some fname => if w fname then [Event.callNamed fname] else []
    | none => []

/-- Events of a list of synchronous steps, in order. -/
def syncList (w : String → Bool) : List Step → List Event
  | [] => []
  | s :: rest => syncEvents w s ++ syncList w rest

theorem chainRun_sync_cons (w : String → Bool) (pathname : String)
    (oracle : List FetchOutcome) (s : Step) (rest : List Step) (final : Bool)
    (h : isSync s = true) :
    chainRun w pathname oracle (s :: rest) final =
      syncEvents w s ++ chainRun w pathname oracle rest final := by
  match s with
  | .fn id => simp [chainRun, syncEvents]
  | .str name => simp [isSync] at h
  | .obj o =>
    match hf : o.function with
    | some fname => simp [chainRun, syncEvents, hf]
    | none => simp [isSync, hf] at h

theorem chainRun_sync_append (w : String → Bool) (pathname : String) :
    ∀ (pre : List Step) (oracle : List FetchOutcome) (post : List Step) (final : Bool),
      (∀ s ∈ pre, isSync s = true) →
      chainRun w pathname oracle (pre ++ post) final =
        syncList w pre ++ chainRun w pathname oracle post final := by
  intro pre
  induction pre with
  | nil => intro oracle post final _; simp [syncList]
  | cons s rest ih =>
    intro oracle post final h
    have hs : isSync s = true := h s (List.mem_cons_self s rest)
    have hrest : ∀ t ∈ rest, isSync t = true :=
      fun t ht => h t (List.mem_cons_of_mem s ht)
    rw [List.cons_append, chainRun_sync_cons w pathname oracle s (rest ++ post) final hs,
      ih oracle post final hrest]
    simp [syncList]

theorem chainRun_sync_final (w : String → Bool) (pathname : String)
    (oracle : List FetchOutcome) (steps : List Step)
    (h : ∀ s ∈ steps, isSync s = true) :
    chainRun w pathname oracle steps true = syncList w steps ++ [Event.finalCb] := by
  have := chainRun_sync_append w pathname steps oracle [] true h
  rw [List.append_nil] at this
  rw [this]
  simp [chainRun]

/-- Claim C3: a head step that is a string naming a resolvable global
function is invoked, but the engine does not recurse into the remaining
steps afterward — the trace is just that invocation, so no later step and no
final callback executes; a head step that is a function value is invoked and
the engine recurses on the remaining list with the same final callback. -/
theorem chain_string_step_stops_vs_function_recurses (w : String → Bool)
    (pathname : String) (oracle : List FetchOutcome) (name : String) (id : Nat)
    (rest : List Step) (final : Bool) (hres : w name = true) :
    chainRun w pathname oracle (Step.str name :: rest) final = [Event.callNamed name] ∧
    chainRun w pathname oracle (Step.fn id :: rest) final =
      Event.callFn id :: chainRun w pathname oracle rest final := by
  constructor
  · simp [chainRun, hres]
  · simp [chainRun]

/-- Witness for `chain_string_step_stops_vs_function_recurses`: global table
resolving exactly `g`; the string step `g` followed by a function step and a
final callback executes nothing but `g`. -/
theorem chain_string_step_stops_witness :
    ((fun n => n = "g") : String → Bool) "g" = true ∧
    chainRun (fun n => n = "g") "/p" [] [Step.str "g", Step.fn 2] true =
      [Event.callNamed "g"] ∧
    chainRun (fun n => n = "g") "/p" [] [Step.fn 1, Step.fn 2] true =
      Event.callFn 1 :: chainRun (fun n => n = "g") "/p" [] [Step.fn 2] true :=
  ⟨by decide,
    (chain_string_step_stops_vs_function_recurses (fun n => n = "g") "/p" []
      "g" 1 [Step.fn 2] true (by decide)).1,
    (chain_string_step_stops_vs_function_recurses (fun n => n = "g") "/p" []
      "g" 1 [Step.fn 2] true (by decide)).2⟩

/-- Prefix evaluation of the engine: events emitted by a step-list prefix,
the oracle entries left for the continuation, and whether the recursion
continues past the prefix (a string step, a missing-field throw, or a
never-settling transport stops it).  Tied to `chainRun` by
`chainRun_decompose`. -/
def prefixRun (w : String → Bool) (pathname : String) :
    List FetchOutcome → List Step → List Event × List FetchOutcome × Bool
  | oracle, [] => ([], oracle, true)
  | oracle, s :: rest =>
    match s with
    | .fn id =>
      let r := prefixRun w pathname oracle rest
      (Event.callFn id :: r.1, r.2)
    | .str name =>
      if w name then ([Event.callNamed name], oracle, false)
      else ([Event.err "TypeError: cannot use in on a string"], oracle, false)
    | .obj o =>
      match o.function with
      | some fname =>
        let r := prefixRun w pathname oracle rest
        ((if w fname then [Event.callNamed fname] else []) ++ r.1, r.2)
      | none =>
        match o.method with
        | some m =>
          match oracle with
          | outcome :: oracleRest =>
            let r := prefixRun w pathname oracleRest rest
            (Event.requestSent m (chainUrl pathname o) ::
              ((if o.hasCallback then [Event.stepCallback (settle outcome)] else []) ++
                r.1), r.2)
          | [] => ([Event.requestSent m (chainUrl pathname o)], [], false)
        | none => ([Event.err "missing method or function"], oracle, false)

theorem chainRun_decompose (w : String → Bool) (pathname : String) :
    ∀ (pre : List Step) (oracle : List FetchOutcome) (post : List Step) (final : Bool),
      chainRun w pathname oracle (pre ++ post) final =
        (prefixRun w pathname oracle pre).1 ++
          (if (prefixRun w pathname oracle pre).2.2 = true
            then chainRun w pathname (prefixRun w pathname oracle pre).2.1 post final
            else []) := by
  intro pre
  induction pre with
  | nil => intro oracle post final; simp [prefixRun]
  | cons s rest ih =>
    intro oracle post final
    match s with
    | .fn id =>
      simp only [List.cons_append, chainRun, prefixRun, List.append_eq]
      rw [ih oracle post final]
    | .str name =>
      by_cases hw : w name
      · simp [chainRun, prefixRun, hw]
      · simp [chainRun, prefixRun, hw]
    | .obj o =>
      match hf : o.function with
      | some fname =>
        simp only [List.cons_append, chainRun, prefixRun, hf, List.append_eq]
        rw [ih oracle post final]
        simp
      | none =>
        match hm : o.method with
        | some m =>
          match oracle with
          | outcome :: oracleRest =>
            simp only [List.cons_append, chainRun, prefixRun, hf, hm, List.append_eq]
            rw [ih oracleRest post final]
            simp
          | [] => simp [chainRun, prefixRun, hf, hm]
        | none => simp [chainRun, prefixRun, hf, hm]

/-- Claim C6: steps execute strictly in list order.  For any chain
`pre ++ [B] ++ post` whose prefix continues into B (no aborting step, no
hung transport) and whose step `B` is a request step with a local callback,
the full trace is the prefix's events, then B's request dispatch, then B's
local callback invocation (carrying the settled response), and only then
the trace of the remaining steps and the final callback: no later step
starts before B's response has been received and B's local callback has
completed. -/
theorem chain_request_gates_later_steps (w : String → Bool) (pathname : String)
    (oracle : List FetchOutcome) (pre post : List Step) (o : StepObj) (m : String)
    (outcome : FetchOutcome) (oracleRest : List FetchOutcome) (final : Bool)
    (hcont : (prefixRun w pathname oracle pre).2.2 = true)
    (horacle : (prefixRun w pathname oracle pre).2.1 = outcome :: oracleRest)
    (hfn : o.function = none) (hm : o.method = some m) (hcb : o.hasCallback = true) :
    chainRun w pathname oracle (pre ++ Step.obj o :: post) final =
      (prefixRun w pathname oracle pre).1 ++
        Event.requestSent m (chainUrl pathname o) ::
          Event.stepCallback (settle outcome) ::
            chainRun w pathname oracleRest post final := by
  rw [chainRun_decompose w pathname pre oracle (Step.obj o :: post) final]
  rw [if_pos hcont, horacle]
  simp [chainRun, hfn, hm, hcb]

/-- Witness for `chain_request_gates_later_steps` on the spec's shape
`[A(function), B(request), C(function)]`: C's event and the final callback
appear only after B's callback event. -/
theorem chain_request_gates_later_steps_witness :
    chainRun (fun _ => false) "/p" [FetchOutcome.success "ok"]
        [Step.fn 1, Step.obj { method := some "GET", hasCallback := true }, Step.fn 2]
        true =
      (prefixRun (fun _ => false) "/p" [FetchOutcome.success "ok"] [Step.fn 1]).1 ++
        Event.requestSent "GET"
            (chainUrl "/p" { method := some "GET", hasCallback := true }) ::
          Event.stepCallback (settle (FetchOutcome.success "ok")) ::
            chainRun (fun _ => false) "/p" [] [Step.fn 2] true :=
  chain_request_gates_later_steps (fun _ => false) "/p" [FetchOutcome.success "ok"]
    [Step.fn 1] [Step.fn 2] { method := some "GET", hasCallback := true } "GET"
    (FetchOutcome.success "ok") [] true rfl rfl rfl rfl rfl

/-- Claim C7: when the transport rejects, `REST.request` still invokes the
waiting completion callback exactly once, with null, never throwing to the
caller; and a chain owning that request step still runs the step's local
callback (with null), proceeds through its remaining steps and reaches its
final callback. -/
theorem chain_transport_reject_continues (w : String → Bool) (pathname : String)
    (oracleRest : List FetchOutcome) (o : StepObj) (m : String) (rest : List Step)
    (hfn : o.function = none) (hm : o.method = some m) (hcb : o.hasCallback = true)
    (hrest : ∀ s ∈ rest, isSync s = true) :
    requestOnDoneCalls FetchOutcome.reject = [none] ∧
    chainRun w pathname (FetchOutcome.reject :: oracleRest) (Step.obj o :: rest) true =
      Event.requestSent m (chainUrl pathname o) ::
        Event.stepCallback none :: (syncList w rest ++ [Event.finalCb]) := by
  refine ⟨rfl, ?_⟩
  have hr := chainRun_sync_final w pathname oracleRest rest hrest
  simp [chainRun, hfn, hm, hcb, settle, hr]

/-- Witness for `chain_transport_reject_continues`: a rejected request step
followed by a function step; the local callback fires with null and the
chain reaches the function step and the final callback. -/
theorem chain_transport_reject_continues_witness :
    requestOnDoneCalls FetchOutcome.reject = [none] ∧
    chainRun (fun _ => false) "/p" [FetchOutcome.reject]
        [Step.obj { method := some "GET", hasCallback := true }, Step.fn 2] true =
      Event.requestSent "GET"
          (chainUrl "/p" { method := some "GET", hasCallback := true }) ::
        Event.stepCallback none ::
          (syncList (fun _ => false) [Step.fn 2] ++ [Event.finalCb]) :=
  chain_transport_reject_continues (fun _ => false) "/p" []
    { method := some "GET", hasCallback := true } "GET" [Step.fn 2]
    rfl rfl rfl (by decide)

/-- Claim C8: running the engine on an empty step list — whether passed as
an array or as a string parsing to an empty array — invokes the final
callback exactly once, executes zero steps, and returns: the base case of
the recursion (REST.ts lines 354-365). -/
theorem chain_empty_invokes_final (w : String → Bool) (pathname : String)
    (oracle : List FetchOutcome) :
    chain w pathname oracle (ChainInput.arr []) true = [Event.finalCb] ∧
    chain w pathname oracle (ChainInput.strJson (some [])) true = [Event.finalCb] :=
  ⟨rfl, rfl⟩

/-- Claim C10: `REST.dataAttr` on an empty array returns before ever calling
`REST.chain` (the `if (chain.length)` guard at REST.ts line 297), so it
executes no step and never invokes the supplied final callback — even though
calling `REST.chain` directly with an empty list does invoke the final
callback. -/
theorem dataAttr_empty_never_calls_final (w : String → Bool) (pathname : String)
    (oracle : List FetchOutcome) :
    dataAttrArray w pathname oracle [] true = [] ∧
    chain w pathname oracle (ChainInput.arr []) true = [Event.finalCb] :=
  ⟨rfl, rfl⟩

/-! ### FormChainAdapter: JSON-path grouping and assembly (REST.formSubmit,
REST.ts lines 136-206)

The dot-path logic needs character-level reasoning, so here JS strings are
modelled as `List Char` (`JStr`).  JS operations map as follows:
`includes('.')` is membership of `'.'`; `substring(0, indexOf('.'))` on a
dotted string is `takeWhile (· ≠ '.')`; `substring(indexOf('.') + 1)` is
`dropWhile (· ≠ '.')` then dropping the dot; `startsWith(p)` is
`p.isPrefixOf`.  The object assembly `Faze.Helpers.objectFromString`
(whose source is outside this repository snapshot) is modelled by the list
of merge operations handed to it, which is all claims C5 and C9 consult. -/

/-- A JS string, character by character. -/
abbrev JStr := List Char

/-- REST.ts line 145: the group name a tagged field induces —
`inputDataName.includes('.') ? inputDataName.substring(0, inputDataName.indexOf('.')) : inputDataName`. -/
def firstSegment (s : JStr) : JStr :=
  if '.' ∈ s then s.takeWhile (fun c => c ≠ '.') else s

/-- `[...new Set(xs)]` (REST.ts line 142): unique values, first occurrence
order. -/
def uniqueKeepFirst (l : List JStr) : List JStr :=
  l.foldl (fun acc x => if x ∈ acc then acc else acc ++ [x]) []

/-- REST.ts lines 142-146: the unique object names to assemble. -/
def jsonNames (attrs : List JStr) : List JStr :=
  uniqueKeepFirst (attrs.map firstSegment)

/-- REST.ts lines 153-158: the fields grouped under one object name —
`attrJsonName.includes('.') ? attrJsonName.startsWith(jsonName + '.') : attrJsonName.startsWith(jsonName)`. -/
def groupFilter (name : JStr) (attrs : List JStr) : List JStr :=
  attrs.filter (fun a => if '.' ∈ a then (name ++ ['.']).isPrefixOf a else name.isPrefixOf a)

theorem mem_uniqueKeepFirst (x : JStr) (l : List JStr) :
    x ∈ uniqueKeepFirst l → x ∈ l := by
  have master : ∀ (l : List JStr) (acc : List JStr),
      x ∈ l.foldl (fun acc y => if y ∈ acc then acc else acc ++ [y]) acc →
        x ∈ acc ∨ x ∈ l := by
    intro l
    induction l with
    | nil => intro acc h; exact Or.inl (by simpa using h)
    | cons y ys ih =>
      intro acc h
      simp only [List.foldl_cons] at h
      rcases ih (if y ∈ acc then acc else acc ++ [y]) h with h | h
      · by_cases hy : y ∈ acc
        · simp [hy] at h; exact Or.inl h
        · simp [hy, List.mem_append] at h
          rcases h with h | h
          · exact Or.inl h
          · exact Or.inr (by simp [h])
      · exact Or.inr (List.mem_cons_of_mem y h)
  intro h
  rcases master l [] h with h | h
  · simp at h
  · exact h

theorem firstSegment_no_dot (s : JStr) : '.' ∉ firstSegment s := by
  unfold firstSegment
  by_cases h : '.' ∈ s
  · simp only [h, if_true]
    intro hc
    have := List.mem_takeWhile_imp hc
    simp at this
  · rw [if_neg h]
    exact h

theorem jsonNames_no_dot (attrs : List JStr) (name : JStr)
    (h : name ∈ jsonNames attrs) : '.' ∉ name := by
  have := mem_uniqueKeepFirst name (attrs.map firstSegment) h
  rcases List.mem_map.mp this with ⟨a, _, ha⟩
  exact ha ▸ firstSegment_no_dot a

theorem takeWhile_to_dot (t : JStr) :
    ∀ (name : JStr), '.' ∉ name →
      (name ++ '.' :: t).takeWhile (fun c => c ≠ '.') = name := by
  intro name
  induction name with
  | nil => intro _; simp [List.takeWhile]
  | cons c cs ih =>
    intro h
    have hc : c ≠ '.' := fun e => h (e ▸ List.mem_cons_self c cs)
    have hcs : '.' ∉ cs := fun hm => h (List.mem_cons_of_mem c hm)
    have ih2 := ih hcs
    have hstep : ((c :: cs) ++ '.' :: t).takeWhile (fun c => decide (c ≠ '.')) =
        c :: ((cs ++ '.' :: t).takeWhile (fun c => decide (c ≠ '.'))) := by
      simp [List.takeWhile_cons, hc]
    rw [hstep, ih2]

theorem dot_split (a : JStr) (h : '.' ∈ a) :
    ∃ t, a = a.takeWhile (fun c => c ≠ '.') ++ '.' :: t := by
  induction a with
  | nil => simp at h
  | cons c cs ih =>
    by_cases hc : c = '.'
    · subst hc
      exact ⟨cs, by simp [List.takeWhile_cons]⟩
    · have hm : '.' ∈ cs := by
        rcases List.mem_cons.mp h with h | h
        · exact absurd h.symm hc
        · exact h
      rcases ih hm with ⟨t, ht⟩
      refine ⟨t, ?_⟩
      have hstep : (c :: cs).takeWhile (fun c => decide (c ≠ '.')) =
          c :: (cs.takeWhile (fun c => decide (c ≠ '.'))) := by
        simp [List.takeWhile_cons, hc]
      rw [hstep, List.cons_append]
      exact congrArg (c :: ·) ht

theorem dotted_startsWith_iff_segment (name a : JStr) (hn : '.' ∉ name)
    (ha : '.' ∈ a) :
    (name ++ ['.']).isPrefixOf a = true ↔ firstSegment a = name := by
  rw [ List.isPrefixOf_iff_prefix]
  constructor
  · rintro ⟨t, ht⟩
    have : a = name ++ '.' :: t := by simpa using ht.symm
    rw [this, firstSegment]
    have hdot : ('.' : Char) ∈ name ++ '.' :: t := by simp
    simp only [hdot, if_true]
    exact takeWhile_to_dot t name hn
  · intro hseg
    rcases dot_split a ha with ⟨t, ht⟩
    rw [firstSegment, if_pos ha] at hseg
    refine ⟨t, ?_⟩
    rw [ht, hseg]
    simp

/-- Claim C5 (amended): for a computed object name, a DOTTED field path is
grouped under the name exactly when its first dot-separated segment equals
the name; but a DOT-FREE field path is grouped by plain string-prefix match
(REST.ts line 157, `attrJsonName.startsWith(jsonName)`), so a dotless path
that merely extends the name (such as `userx` against `user`) IS grouped
under it — the exact-segment rule of the original claim holds only for
dotted paths. -/
theorem formSubmit_group_membership (attrs : List JStr) (name a : JStr)
    (hname : name ∈ jsonNames attrs) :
    ('.' ∈ a → (a ∈ groupFilter name attrs ↔ a ∈ attrs ∧ firstSegment a = name)) ∧
    ('.' ∉ a → (a ∈ groupFilter name attrs ↔ a ∈ attrs ∧ name.isPrefixOf a = true)) := by
  have hn : '.' ∉ name := jsonNames_no_dot attrs name hname
  constructor
  · intro ha
    rw [groupFilter, List.mem_filter]
    simp only [ha, if_true]
    rw [dotted_startsWith_iff_segment name a hn ha]
  · intro ha
    rw [groupFilter, List.mem_filter]
    simp only [ha, if_false]

/-- Claim C5 counterexample: with tagged paths `user.a` and `userx`, the
name `user` is computed, and the field `userx` IS included in the group of
`user` although its first dot-separated segment `userx` differs from
`user` — refuting "a field whose path merely begins with the name as a
string prefix is not grouped under it". -/
theorem formSubmit_group_prefix_counterexample :
    "user".toList ∈ jsonNames ["user.a".toList, "userx".toList] ∧
    "userx".toList ∈ groupFilter "user".toList ["user.a".toList, "userx".toList] ∧
    firstSegment "userx".toList ≠ "user".toList := by
  refine ⟨by decide, by decide, by decide⟩

/-- Witness for `formSubmit_group_membership`: name `user` over paths
`user.a` (dotted, grouped, segment matches) and `other` (dotless, not
grouped). -/
theorem formSubmit_group_membership_witness :
    ("user".toList ∈ jsonNames ["user.a".toList, "other".toList]) ∧
    ("user.a".toList ∈ groupFilter "user".toList ["user.a".toList, "other".toList] ↔
      "user.a".toList ∈ ["user.a".toList, "other".toList] ∧
        firstSegment "user.a".toList = "user".toList) :=
  ⟨by decide,
    (formSubmit_group_membership ["user.a".toList, "other".toList]
      "user".toList "user.a".toList (by decide)).1 (by decide)⟩

/-! ### FormChainAdapter: checkbox/radio assembly (REST.formSubmit,
REST.ts lines 160-185)

Inside one object-name group, `formSubmit` walks the matched fields: a field
that is not a checkbox/radio, or is a checked one, merges a
`(remainder-path, key, value)` tuple into the object under assembly via
`Faze.Helpers.objectFromString`; then — in every case — the raw field is
deleted from the outgoing FormData.  The assembly is modelled by the ordered
list of merge operations performed; the FormData by key/value pairs. -/

/-- One merge performed on the object under assembly
(`Faze.Helpers.objectFromString(jsonObject, jsonNameForObject, key, value)`,
REST.ts line 178). -/
structure MergeOp where
  path : JStr
  key : JStr
  value : JStr
deriving DecidableEq

/-- One matched form field, with the data the loop at lines 160-185 reads:
its JSON-path attribute, whether its `type` is `radio`/`checkbox`, its
checked state, its `name`, the optional key/value data-attribute overrides,
and its value. -/
structure JsonField where
  attrName : JStr
  isCheckboxOrRadio : Bool
  checked : Bool
  name : JStr
  keyOverride : Option JStr := none
  valueOverride : Option JStr := none
  value : JStr := []
deriving DecidableEq

/-- JS `x || d` on an optional string: absent and empty are falsy. -/
def jsOrJ (o : Option JStr) (d : JStr) : JStr :=
  match o with
  | some v => if v = [] then d else v
  | none => d

/-- REST.ts lines 166-173: the path passed to the merge — everything after
the first dot, or the empty string for a dotless attribute. -/
def remainderPath (s : JStr) : JStr :=
  if '.' ∈ s then (s.dropWhile (fun c => c ≠ '.')).drop 1 else []

/-- The merge operation a contributing field performs (REST.ts
lines 168-178): key and value fall back from the data-attribute overrides
to the field's own name and value. -/
def mkOp (f : JsonField) : MergeOp :=
  ⟨remainderPath f.attrName, jsOrJ f.keyOverride f.name, jsOrJ f.valueOverride f.value⟩

/-- REST.ts line 165: a field contributes unless it is a checkbox/radio
that is not checked —
`if (!isCheckboxOrRadio || (isCheckboxOrRadio && itemNode.checked))`. -/
def contribOf (f : JsonField) : Option MergeOp :=
  if !f.isCheckboxOrRadio || (f.isCheckboxOrRadio && f.checked) then some (mkOp f)
  else none

/-- Processing of one field in the group loop (REST.ts lines 160-185):
possibly merge into the object, then delete the raw field from the outgoing
FormData regardless of selection state (lines 181-184). -/
def processField (acc : List MergeOp × List (JStr × JStr)) (f : JsonField) :
    List MergeOp × List (JStr × JStr) :=
  (match contribOf f with
    | some op => acc.1 ++ [op]
    | none => acc.1,
    acc.2.filter (fun e => e.1 ≠ f.name))

/-- The group loop over all matched fields (`inputsNodes.forEach`,
REST.ts line 160). -/
def groupRun (acc : List MergeOp × List (JStr × JStr)) :
    List JsonField → List MergeOp × List (JStr × JStr)
  | [] => acc
  | f :: fs => groupRun (processField acc f) fs

theorem groupRun_ops :
    ∀ (fields : List JsonField) (acc : List MergeOp × List (JStr × JStr)),
      (groupRun acc fields).1 = acc.1 ++ fields.filterMap contribOf := by
  intro fields
  induction fields with
  | nil => intro acc; simp [groupRun]
  | cons f fs ih =>
    intro acc
    rw [groupRun, ih (processField acc f)]
    cases h : contribOf f with
    | some op => simp [processField, h, List.filterMap_cons]
    | none => simp [processField, h, List.filterMap_cons]

theorem groupRun_fd_subset :
    ∀ (fields : List JsonField) (acc : List MergeOp × List (JStr × JStr))
      (e : JStr × JStr), e ∈ (groupRun acc fields).2 → e ∈ acc.2 := by
  intro fields
  induction fields with
  | nil => intro acc e h; simpa [groupRun] using h
  | cons f fs ih =>
    intro acc e h
    have := ih (processField acc f) e h
    simp only [processField, List.mem_filter] at this
    exact this.1

theorem groupRun_fd_deleted :
    ∀ (fields : List JsonField) (acc : List MergeOp × List (JStr × JStr))
      (f : JsonField), f ∈ fields →
      ∀ e ∈ (groupRun acc fields).2, e.1 ≠ f.name := by
  intro fields
  induction fields with
  | nil => intro acc f h; simp at h
  | cons g fs ih =>
    intro acc f hf e he
    rcases List.mem_cons.mp hf with rfl | hmem
    · have := groupRun_fd_subset fs (processField acc f) e (by simpa [groupRun] using he)
      simp only [processField, List.mem_filter, decide_eq_true_eq] at this
      exact this.2
    · exact ih (processField acc g) f hmem e (by simpa [groupRun] using he)

/-- Claim C9: within one group, every checkbox/radio field tagged with a
JSON-path attribute contributes a merge to the assembled object exactly when
it is checked (the assembled merges are characterized as
`filterMap contribOf`, and an unchecked checkbox/radio has no
contribution), while the raw field is deleted from the outgoing form data
regardless of its selection state. -/
theorem formSubmit_checkbox_contribution (fd0 : List (JStr × JStr))
    (fields : List JsonField) (f : JsonField)
    (hcb : f.isCheckboxOrRadio = true) (hf : f ∈ fields) :
    (groupRun ([], fd0) fields).1 = fields.filterMap contribOf ∧
    (f.checked = false → contribOf f = none) ∧
    (f.checked = true → contribOf f = some (mkOp f)) ∧
    (groupRun ([], fd0) fields).2.all (fun e => e.1 ≠ f.name) = true := by
  refine ⟨by simpa using groupRun_ops fields ([], fd0), ?_, ?_, ?_⟩
  · intro h; simp [contribOf, hcb, h]
  · intro h; simp [contribOf, hcb, h]
  · rw [List.all_eq_true]
    intro e he
    simpa using groupRun_fd_deleted fields ([], fd0) f hf e he

/-- Witness for `formSubmit_checkbox_contribution`: an unchecked checkbox
`agree` tagged into group `user` alongside a text field; it contributes no
merge and its raw entry is removed from the outgoing data. -/
theorem formSubmit_checkbox_contribution_witness :
    (groupRun ([], [("agree".toList, "on".toList), ("city".toList, "x".toList)])
        [⟨"user.agree".toList, true, false, "agree".toList, none, none, "on".toList⟩,
          ⟨"user.name".toList, false, false, "name".toList, none, none, "max".toList⟩]).1 =
      ([⟨"user.agree".toList, true, false, "agree".toList, none, none, "on".toList⟩,
          ⟨"user.name".toList, false, false, "name".toList, none, none,
            "max".toList⟩] : List JsonField).filterMap contribOf ∧
    (false = false →
      contribOf ⟨"user.agree".toList, true, false, "agree".toList, none, none,
        "on".toList⟩ = none) ∧
    (false = true →
      contribOf ⟨"user.agree".toList, true, false, "agree".toList, none, none,
        "on".toList⟩ = some (mkOp ⟨"user.agree".toList, true, false, "agree".toList,
          none, none, "on".toList⟩)) ∧
    (groupRun ([], [("agree".toList, "on".toList), ("city".toList, "x".toList)])
        [⟨"user.agree".toList, true, false, "agree".toList, none, none, "on".toList⟩,
          ⟨"user.name".toList, false, false, "name".toList, none, none,
            "max".toList⟩]).2.all (fun e => e.1 ≠ "agree".toList) = true := by
  have h := formSubmit_checkbox_contribution
    [("agree".toList, "on".toList), ("city".toList, "x".toList)]
    [⟨"user.agree".toList, true, false, "agree".toList, none, none, "on".toList⟩,
      ⟨"user.name".toList, false, false, "name".toList, none, none, "max".toList⟩]
    ⟨"user.agree".toList, true, false, "agree".toList, none, none, "on".toList⟩
    rfl (by decide)
  exact h
